import Mathlib

/-!
Shallow embedding of the character-level n-gram predictive-text model of
ngram.py (class NgramCharacterModel).

Modelling conventions:
* Python strings are lists of characters (List Char); Python integers are ℤ.
* Python dicts are association lists that preserve insertion order; an update
  replaces the value at the first matching key in place, an insert appends.
* Python float arithmetic is idealised: the probability computations of
  get_char_probability are exact rationals (ℚ); the transcendental scoring of
  get_word_probability (math.log, math.exp) lives in ℝ.
* The only Python runtime failures reachable from the modelled code are
  out-of-range list and string indexing; these are embedded as Option, and the
  construction pipeline is Option-valued.  Reads of defaultdicts are embedded
  with their insertion side effect, so every query returns its (possibly
  updated) model state next to its value.
-/

/-- Association-list model of a Python dict: insertion order is preserved,
an update replaces the first matching key in place, an insert appends. -/
abbrev Dict (α β : Type) : Type := List (α × β)

/-- Lookup of a key, returning the value at its first occurrence. -/
def Dict.find? {α β : Type} [DecidableEq α] : Dict α β → α → Option β
  | [], _ => none
  | (a, b) :: t, k => if a = k then some b else Dict.find? t k

/-- Lookup with a default, the Python d.get(k, v). -/
def Dict.getD {α β : Type} [DecidableEq α] (d : Dict α β) (k : α) (v : β) : β :=
  (Dict.find? d k).getD v

/-- Store a value: replace the first occurrence of the key, else append. -/
def Dict.set {α β : Type} [DecidableEq α] : Dict α β → α → β → Dict α β
  | [], k, v => [(k, v)]
  | (a, b) :: t, k, v => if a = k then (k, v) :: t else (a, b) :: Dict.set t k v

/-- Remove the first occurrence of a key. -/
def Dict.eraseFirst {α β : Type} [DecidableEq α] : Dict α β → α → Dict α β
  | [], _ => []
  | (a, b) :: t, k => if a = k then t else (a, b) :: Dict.eraseFirst t k

/-- Sum of all stored values of a counting dict. -/
def Dict.sumValues {α : Type} (d : Dict α ℕ) : ℕ := (d.map Prod.snd).sum

/-- The Python defaultdict read d[k]: return the stored value, or insert and
return the default.  The second component is the dict after the read. -/
def Dict.ddGet {α β : Type} [DecidableEq α] (d : Dict α β) (k : α) (v : β) :
    β × Dict α β :=
  match Dict.find? d k with
  | some b => (b, d)
  | none => (v, Dict.set d k v)

theorem Dict.find?_set_self {α β : Type} [DecidableEq α]
    (d : Dict α β) (k : α) (v : β) : Dict.find? (Dict.set d k v) k = some v := by
  induction d with
  | nil => simp [Dict.set, Dict.find?]
  | cons p t ih =>
    obtain ⟨a, b⟩ := p
    by_cases h : a = k
    · simp [Dict.set, Dict.find?, h]
    · simp [Dict.set, Dict.find?, h, ih]

theorem Dict.find?_set_ne {α β : Type} [DecidableEq α]
    (d : Dict α β) (k k' : α) (v : β) (h : k' ≠ k) :
    Dict.find? (Dict.set d k v) k' = Dict.find? d k' := by
  have hkk : ¬ (k = k') := fun hh => h hh.symm
  induction d with
  | nil => simp [Dict.set, Dict.find?, hkk]
  | cons p t ih =>
    obtain ⟨a, b⟩ := p
    by_cases hak : a = k
    · subst hak
      simp [Dict.set, Dict.find?, hkk]
    · by_cases hak' : a = k'
      · simp [Dict.set, Dict.find?, hak, hak', h, hkk]
      · simp [Dict.set, Dict.find?, hak, hak', ih]

theorem Dict.getD_set_self {α β : Type} [DecidableEq α]
    (d : Dict α β) (k : α) (v dv : β) : Dict.getD (Dict.set d k v) k dv = v := by
  simp [Dict.getD, Dict.find?_set_self]

theorem Dict.getD_set_ne {α β : Type} [DecidableEq α]
    (d : Dict α β) (k k' : α) (v dv : β) (h : k' ≠ k) :
    Dict.getD (Dict.set d k v) k' dv = Dict.getD d k' dv := by
  simp [Dict.getD, Dict.find?_set_ne d k k' v h]

theorem Dict.sumValues_bump {α : Type} [DecidableEq α] (d : Dict α ℕ) (k : α) :
    Dict.sumValues (Dict.set d k (Dict.getD d k 0 + 1)) = Dict.sumValues d + 1 := by
  induction d with
  | nil => simp [Dict.set, Dict.getD, Dict.find?, Dict.sumValues]
  | cons p t ih =>
    obtain ⟨a, b⟩ := p
    by_cases h : a = k
    · have hg : Dict.getD ((a, b) :: t) k 0 = b := by simp [Dict.getD, Dict.find?, h]
      have hset : Dict.set ((a, b) :: t) k (b + 1) = (k, b + 1) :: t := by
        simp [Dict.set, h]
      rw [hg, hset]
      simp only [Dict.sumValues, List.map_cons, List.sum_cons]
      omega
    · have hk : Dict.getD ((a, b) :: t) k 0 = Dict.getD t k 0 := by
        simp [Dict.getD, Dict.find?, h]
      have hset : Dict.set ((a, b) :: t) k (Dict.getD t k 0 + 1)
          = (a, b) :: Dict.set t k (Dict.getD t k 0 + 1) := by
        simp [Dict.set, h]
      rw [hk, hset]
      simp only [Dict.sumValues, List.map_cons, List.sum_cons] at ih ⊢
      omega

theorem Dict.getD_le_sumValues {α : Type} [DecidableEq α] (d : Dict α ℕ) (k : α) :
    Dict.getD d k 0 ≤ Dict.sumValues d := by
  induction d with
  | nil => simp [Dict.getD, Dict.find?, Dict.sumValues]
  | cons p t ih =>
    obtain ⟨a, b⟩ := p
    by_cases h : a = k
    · simp [Dict.getD, Dict.find?, h, Dict.sumValues]
    · have hk : Dict.getD ((a, b) :: t) k 0 = Dict.getD t k 0 := by
        simp [Dict.getD, Dict.find?, h]
      calc Dict.getD ((a, b) :: t) k 0 = Dict.getD t k 0 := hk
        _ ≤ Dict.sumValues t := ih
        _ ≤ Dict.sumValues ((a, b) :: t) := by
            simp only [Dict.sumValues, List.map_cons, List.sum_cons]
            omega

theorem Dict.getD_eraseFirst_ne {α : Type} [DecidableEq α]
    (d : Dict α ℕ) (k k' : α) (h : k' ≠ k) :
    Dict.getD (Dict.eraseFirst d k) k' 0 = Dict.getD d k' 0 := by
  have hkk : ¬ (k = k') := fun hh => h hh.symm
  induction d with
  | nil => simp [Dict.eraseFirst]
  | cons p t ih =>
    obtain ⟨a, b⟩ := p
    by_cases hak : a = k
    · subst hak
      simp [Dict.eraseFirst, Dict.getD, Dict.find?, hkk]
    · by_cases hak' : a = k'
      · simp [Dict.eraseFirst, hak, Dict.getD, Dict.find?, hak', h, hkk]
      · have ih2 := ih
        simp only [Dict.getD] at ih2
        simp [Dict.eraseFirst, hak, Dict.getD, Dict.find?, hak', ih2]

theorem Dict.getD_add_sumValues_eraseFirst {α : Type} [DecidableEq α]
    (d : Dict α ℕ) (k : α) :
    Dict.getD d k 0 + Dict.sumValues (Dict.eraseFirst d k) ≤ Dict.sumValues d := by
  induction d with
  | nil => simp [Dict.getD, Dict.find?, Dict.eraseFirst, Dict.sumValues]
  | cons p t ih =>
    obtain ⟨a, b⟩ := p
    by_cases h : a = k
    · subst h
      simp [Dict.getD, Dict.find?, Dict.eraseFirst, Dict.sumValues]
    · have hk : Dict.getD ((a, b) :: t) k 0 = Dict.getD t k 0 := by
        simp [Dict.getD, Dict.find?, h]
      simp only [hk, Dict.eraseFirst, if_neg h, Dict.sumValues, List.map_cons,
        List.sum_cons] at *
      omega

theorem Dict.sum_getD_nodup_le {α : Type} [DecidableEq α]
    (l : List α) (d : Dict α ℕ) (hl : l.Nodup) :
    ((l.map (fun k => Dict.getD d k 0)).sum) ≤ Dict.sumValues d := by
  induction l generalizing d with
  | nil => simp
  | cons a t ih =>
    have hna : a ∉ t := (List.nodup_cons.mp hl).1
    have ht : t.Nodup := (List.nodup_cons.mp hl).2
    have hmap : (t.map (fun k => Dict.getD d k 0))
        = t.map (fun k => Dict.getD (Dict.eraseFirst d a) k 0) := by
      apply List.map_congr_left
      intro x hx
      exact (Dict.getD_eraseFirst_ne d a x (by rintro rfl; exact hna hx)).symm
    have hle := ih (Dict.eraseFirst d a) ht
    have hkey := Dict.getD_add_sumValues_eraseFirst d a
    simp only [List.map_cons, List.sum_cons, hmap]
    omega

/-- Read a list at a natural-number index. -/
def listGetNat? {α : Type} : List α → ℕ → Option α
  | [], _ => none
  | h :: _, 0 => some h
  | _ :: t, i + 1 => listGetNat? t i

/-- Write a list at a natural-number index (no-op when out of range). -/
def listSetNat {α : Type} : List α → ℕ → α → List α
  | [], _, _ => []
  | _ :: t, 0, x => x :: t
  | h :: t, i + 1, x => h :: listSetNat t i x

/-- Read a list at an integer index, the (non-negative case of the) Python
l[j].  In all modelled code paths the index is non-negative, so Python
negative-index wraparound is not reachable and is modelled as a miss. -/
def listGet? {α : Type} (l : List α) (j : ℤ) : Option α :=
  if 0 ≤ j then listGetNat? l j.toNat else none

/-- Read a list at an integer index with a default value. -/
def listGetD {α : Type} (l : List α) (j : ℤ) (d : α) : α := (listGet? l j).getD d

/-- Write a list at an integer index (no-op when out of range, which never
happens on the modelled code paths: Python would have raised on the read that
precedes every write). -/
def listSet {α : Type} (l : List α) (j : ℤ) (x : α) : List α :=
  if 0 ≤ j then listSetNat l j.toNat x else l

theorem listGetNat?_setNat_self {α : Type} (l : List α) (i : ℕ) (x a : α)
    (h : listGetNat? l i = some a) :
    listGetNat? (listSetNat l i x) i = some x := by
  induction l generalizing i with
  | nil => simp [listGetNat?] at h
  | cons b t ih =>
    cases i with
    | zero => simp [listGetNat?, listSetNat]
    | succ i => simpa [listGetNat?, listSetNat] using ih i (by simpa [listGetNat?] using h)

theorem listGetNat?_setNat_ne {α : Type} (l : List α) (i i' : ℕ) (x : α)
    (h : i' ≠ i) : listGetNat? (listSetNat l i x) i' = listGetNat? l i' := by
  induction l generalizing i i' with
  | nil => simp [listSetNat]
  | cons b t ih =>
    cases i with
    | zero =>
      cases i' with
      | zero => exact absurd rfl h
      | succ i' => simp [listGetNat?, listSetNat]
    | succ i =>
      cases i' with
      | zero => simp [listGetNat?, listSetNat]
      | succ i' => simpa [listGetNat?, listSetNat] using ih i i' (by omega)

theorem listSetNat_get_self {α : Type} (l : List α) (i : ℕ) (a : α)
    (h : listGetNat? l i = some a) : listSetNat l i a = l := by
  induction l generalizing i with
  | nil => simp [listGetNat?] at h
  | cons b t ih =>
    cases i with
    | zero =>
      simp [listGetNat?] at h
      simp [listSetNat, h]
    | succ i => simpa [listGetNat?, listSetNat] using ih i (by simpa [listGetNat?] using h)

theorem length_listSetNat {α : Type} (l : List α) (i : ℕ) (x : α) :
    (listSetNat l i x).length = l.length := by
  induction l generalizing i with
  | nil => simp [listSetNat]
  | cons b t ih =>
    cases i with
    | zero => simp [listSetNat]
    | succ i => simp [listSetNat, ih]

theorem listGetNat?_isSome_of_lt {α : Type} (l : List α) (i : ℕ)
    (h : i < l.length) : (listGetNat? l i).isSome := by
  induction l generalizing i with
  | nil => simp at h
  | cons b t ih =>
    cases i with
    | zero => simp [listGetNat?]
    | succ i => simpa [listGetNat?] using ih i (by simpa using h)

theorem listGetD_set_self {α : Type} (l : List α) (j : ℤ) (x d : α)
    (h : (listGet? l j).isSome) : listGetD (listSet l j x) j d = x := by
  unfold listGet? at h
  by_cases hj : 0 ≤ j
  · simp only [hj, if_pos] at h
    obtain ⟨a, ha⟩ := Option.isSome_iff_exists.mp h
    simp [listGetD, listGet?, listSet, hj, listGetNat?_setNat_self l j.toNat x a ha]
  · simp [hj] at h

theorem listGetD_set_ne {α : Type} (l : List α) (j j' : ℤ) (x d : α)
    (h : j' ≠ j) : listGetD (listSet l j x) j' d = listGetD l j' d := by
  by_cases hj : 0 ≤ j
  · by_cases hj' : 0 ≤ j'
    · have : j'.toNat ≠ j.toNat := by omega
      simp [listGetD, listGet?, listSet, hj, hj', listGetNat?_setNat_ne l j.toNat j'.toNat x this]
    · simp [listGetD, listGet?, listSet, hj, hj']
  · simp [listSet, hj]

theorem listSetNat_of_length_le {α : Type} (l : List α) (i : ℕ) (x : α)
    (h : l.length ≤ i) : listSetNat l i x = l := by
  induction l generalizing i with
  | nil => simp [listSetNat]
  | cons b t ih =>
    cases i with
    | zero => simp at h
    | succ i => simp [listSetNat, ih i (by simpa using h)]

theorem listSet_getD_self {α : Type} (l : List α) (j : ℤ) (d : α) :
    listSet l j (listGetD l j d) = l := by
  by_cases hj : 0 ≤ j
  · rcases h : listGetNat? l j.toNat with _ | a
    · have hlen : l.length ≤ j.toNat := by
        by_contra hc
        have hs := listGetNat?_isSome_of_lt l j.toNat (by omega)
        rw [h] at hs
        simp at hs
      simp [listSet, hj, listSetNat_of_length_le l j.toNat _ hlen]
    · simp [listGetD, listGet?, listSet, hj, h, listSetNat_get_self l j.toNat a h]
  · simp [listSet, hj]

theorem length_listSet {α : Type} (l : List α) (j : ℤ) (x : α) :
    (listSet l j x).length = l.length := by
  unfold listSet
  by_cases hj : 0 ≤ j
  · simp [hj, length_listSetNat]
  · simp [hj]

theorem listGet?_isSome_of_bounds {α : Type} (l : List α) (j : ℤ)
    (h0 : 0 ≤ j) (h1 : j < l.length) : (listGet? l j).isSome := by
  unfold listGet?
  simp only [h0, if_pos]
  exact listGetNat?_isSome_of_lt l j.toNat (by omega)

theorem listGetD_replicate_nil {α : Type} (k : ℕ) (j : ℤ) :
    listGetD (List.replicate k ([] : List α)) j [] = [] := by
  unfold listGetD listGet?
  by_cases hj : 0 ≤ j
  · simp only [hj, if_pos]
    rcases h : listGetNat? (List.replicate k ([] : List α)) j.toNat with _ | a
    · simp
    · have : ∀ (m : ℕ) (i : ℕ) (a : List α),
          listGetNat? (List.replicate m ([] : List α)) i = some a → a = [] := by
        intro m
        induction m with
        | zero => intro i a h; simp [listGetNat?] at h
        | succ m ih =>
          intro i a h
          cases i with
          | zero => simpa [listGetNat?] using h.symm
          | succ i => exact ih i a (by simpa [listGetNat?] using h)
      simp [this k j.toNat a h]
  · simp [hj]

/-! ### Python string and slicing primitives -/

/-- The Python slice s[-k:] as it appears in ngram.py (context[-(j - 1):] and
friends).  For k greater than 0 this is the suffix of the last k characters
(clamped to the whole string).  For k equal to 0 Python reads s[-0:] = s[0:],
namely the WHOLE string, not the empty suffix; this quirk is preserved. -/
def pySliceLast (s : List Char) (k : ℤ) : List Char :=
  if k ≤ 0 then s else s.drop (s.length - k.toNat)

/-- The suffix of the last k characters of s (length min(k, len s)); the
intended reading of a length-k suffix, with no Python -0 quirk. -/
def suffixLen (s : List Char) (k : ℤ) : List Char :=
  s.drop (s.length - k.toNat)

/-- The Python slice s[a:b] for 0 ≤ a ≤ b (the only use in ngram.py is
corpus[i - (j - 1):i] under the guard i ≥ j - 1, so both ends are
non-negative). -/
def pySlice (s : List Char) (a b : ℤ) : List Char :=
  (s.take b.toNat).drop a.toNat

/-- The Python character read corpus[i]: out of range is a failure
(IndexError).  Negative-index wraparound never occurs on the modelled paths
(every read is guarded by i ≥ j - 1 ≥ 0). -/
def pyCharAt? (s : List Char) (i : ℤ) : Option Char := listGet? s i

/-! ### Preprocessor (ngram.py __init__, lines 13-27) -/

/-- The character class of the Python regex \s (ASCII range). -/
def isPySpace (c : Char) : Bool :=
  c == ' ' || c == '\t' || c == '\n' || c == '\r' || c == '\x0b' || c == '\x0c'

/-- Characters kept by re.sub(r'[^a-zA-Z\s]', '', ...): letters and
whitespace. -/
def keepChar (c : Char) : Bool :=
  (decide ('a' ≤ c) && decide (c ≤ 'z')) || (decide ('A' ≤ c) && decide (c ≤ 'Z'))
    || isPySpace c

/-- The worker of collapseWS: emit one space for the first character of each
whitespace run, skip the rest of the run (prevSpace tracks whether the
previous character was whitespace). -/
def collapseGo (prevSpace : Bool) : List Char → List Char
  | [] => []
  | c :: rest =>
    if isPySpace c then
      if prevSpace then collapseGo true rest else ' ' :: collapseGo true rest
    else c :: collapseGo false rest

/-- re.sub(r'\s+', ' ', s): collapse every whitespace run to one space. -/
def collapseWS (s : List Char) : List Char := collapseGo false s

/-- The Python str.strip(): remove leading and trailing whitespace. -/
def pyStrip (s : List Char) : List Char :=
  ((s.dropWhile isPySpace).reverse.dropWhile isPySpace).reverse

/-- Lines 14-15 of ngram.py: lowercase, drop every character that is not a
letter or whitespace, collapse whitespace runs to single spaces, strip. -/
def normalizeText (corpus : List Char) : List Char :=
  pyStrip (collapseWS ((corpus.map Char.toLower).filter keepChar))

/-- Modelled from the spec: sentence splitting (the external nltk
sent_tokenize, not part of this repository).  The text it receives here is
already normalized to lowercase letters and single spaces, so it contains no
sentence-ending punctuation and forms a single sentence when non-empty. -/
def sentTokenize (s : List Char) : List (List Char) :=
  if s = [] then [] else [s]

/-- Modelled from the spec: word tokenization (the external nltk
word_tokenize, not part of this repository).  On normalized text, lowercase
words separated by single spaces, it splits on spaces. -/
def wordTokenize (s : List Char) : List (List Char) :=
  (s.splitOn ' ').filter (fun w => !w.isEmpty)

/-- Deduplication with a fixed enumeration order (first occurrence kept).
The source builds the vocabulary through a Python set, whose enumeration
order is unspecified; no claim below depends on the order, only on
membership. -/
def dedupFirst {α : Type} [DecidableEq α] : List α → List α
  | [] => []
  | a :: t => a :: (dedupFirst t).filter (fun b => decide (b ≠ a))

/-- Lines 20-23 of ngram.py: per non-empty sentence, n start markers, the
sentence tokens, and one end marker, appended to the running token list. -/
def buildTokenList (n : ℤ) (sentences : List (List Char)) : List (List Char) :=
  sentences.foldl
    (fun acc s =>
      let tokens := wordTokenize s
      if tokens = [] then acc
      else acc ++ (List.replicate n.toNat ['^'] ++ tokens ++ [['$']]))
    []

/-- Line 25: the vocabulary, every token except the boundary markers,
deduplicated. -/
def vocabOf (ws : List (List Char)) : List (List Char) :=
  dedupFirst (ws.filter (fun w => decide (¬ (w = ['^'] ∨ w = ['$']))))

/-- Line 26: the training character stream, all tokens joined by single
spaces. -/
def joinTokens : List (List Char) → List Char
  | [] => []
  | [w] => w
  | w :: ws => w ++ ' ' :: joinTokens ws

/-- Line 27: collections.Counter of the token list (markers included). -/
def counter (ws : List (List Char)) : Dict (List Char) ℕ :=
  ws.foldl (fun d w => Dict.set d w (Dict.getD d w 0 + 1)) []

/-! ### The model and its construction (ngram.py lines 6-48) -/

/-- The state of a trained NgramCharacterModel.  Python attribute for
attribute: n, counts (a list of n+1 dicts, context to next-character counts),
contexts (a list of n+1 dicts, context to total), backoff_weights, words (the
vocabulary list) and word_freq. -/
structure NgramCharacterModel where
  n : ℤ
  counts : List (Dict (List Char) (Dict Char ℕ))
  contexts : List (Dict (List Char) ℕ)
  backoff_weights : List (Dict (List Char) ℚ)
  words : List (List Char)
  word_freq : Dict (List Char) ℕ
deriving DecidableEq

/-- The two tables _train mutates: self.counts and self.contexts. -/
abbrev TrainTables : Type :=
  List (Dict (List Char) (Dict Char ℕ)) × List (Dict (List Char) ℕ)

/-- The Python range(1, n + 1), the inner loop of _train. -/
def jRange (n : ℤ) : List ℤ := (List.range n.toNat).map (fun (t : ℕ) => (t : ℤ) + 1)

/-- The Python range(len(corpus) - n + 1), the outer loop of _train. -/
def iRange (s : List Char) (n : ℤ) : List ℤ :=
  (List.range ((s.length : ℤ) - n + 1).toNat).map (fun (t : ℕ) => (t : ℤ))

/-- The Python range(k, 0, -1): k, k-1, ..., 1 (empty when k ≤ 0). -/
def downRange (k : ℤ) : List ℤ := (List.range k.toNat).map (fun (t : ℕ) => k - (t : ℤ))

/-- The Python range(2, n + 1), the outer loop of _calculate_backoff_weights. -/
def jRange2 (n : ℤ) : List ℤ := (List.range (n - 1).toNat).map (fun (t : ℕ) => (t : ℤ) + 2)

/-- The body of the _train loops (ngram.py lines 36-40): under the guard
i ≥ j - 1, read context = corpus[i - (j - 1):i] and next_char = corpus[i],
then increment counts[j][context][next_char] and contexts[j][context].
The reads corpus[i], counts[j] and contexts[j] can fail (Python IndexError),
hence the Option. -/
def trainStep (s : List Char) (tb : TrainTables) (i j : ℤ) : Option TrainTables :=
  if j - 1 ≤ i then
    match pyCharAt? s i, listGet? tb.1 j, listGet? tb.2 j with
    | some next_char, some cj, some xj =>
      let context := pySlice s (i - (j - 1)) i
      some
        (listSet tb.1 j
          (Dict.set cj context
            (Dict.set (Dict.getD cj context [])
              next_char (Dict.getD (Dict.getD cj context []) next_char 0 + 1))),
         listSet tb.2 j (Dict.set xj context (Dict.getD xj context 0 + 1)))
    | _, _, _ => none
  else some tb

/-- The inner loop of _train: for j in range(1, n + 1). -/
def trainRow (s : List Char) (i : ℤ) : TrainTables → List ℤ → Option TrainTables
  | tb, [] => some tb
  | tb, j :: js =>
    match trainStep s tb i j with
    | some tb1 => trainRow s i tb1 js
    | none => none

/-- The outer loop of _train: for i in range(len(corpus) - n + 1). -/
def trainAll (s : List Char) (n : ℤ) : TrainTables → List ℤ → Option TrainTables
  | tb, [] => some tb
  | tb, i :: irest =>
    match trainRow s i tb (jRange n) with
    | some tb1 => trainAll s n tb1 irest
    | none => none

/-- _calculate_backoff_weights (ngram.py lines 42-48): for each order j in
2..n and each context stored at order j, weight 0.4 when the context minus
its first character is a context of order j - 1, else 0.1.  The list indices
j and j - 1 always lie in range (the lists have length n + 1), so this part
is embedded with defaulted reads. -/
def backoffWeights (n : ℤ) (contexts : List (Dict (List Char) ℕ)) :
    List (Dict (List Char) ℚ) :=
  (jRange2 n).foldl
    (fun bw j =>
      let xj := listGetD contexts j []
      let xj1 := listGetD contexts (j - 1) []
      listSet bw j
        (xj.foldl
          (fun acc p =>
            Dict.set acc p.1
              (if (Dict.find? xj1 (p.1.drop 1)).isSome then 4/10 else 1/10))
          (listGetD bw j [])))
    (List.replicate (n + 1).toNat [])

/-- NgramCharacterModel.__init__ (ngram.py lines 7-30): normalize the corpus,
tokenize, add boundary markers, build vocabulary, frequency table and the
joined character stream, then train and compute backoff weights.  There is no
validation of n anywhere; the only possible runtime failures are the indexed
reads inside _train. -/
def construct (corpus : List Char) (n : ℤ) : Option NgramCharacterModel :=
  let norm := normalizeText corpus
  let sentences := sentTokenize norm
  let words := buildTokenList n sentences
  let vocab := vocabOf words
  let stream := joinTokens words
  let wf := counter words
  (trainAll stream n
      (List.replicate (n + 1).toNat [], List.replicate (n + 1).toNat [])
      (iRange stream n)).map
    (fun tb =>
      { n := n, counts := tb.1, contexts := tb.2,
        backoff_weights := backoffWeights n tb.2,
        words := vocab, word_freq := wf })

/-- The degenerate model an empty corpus produces. -/
def emptyModel (n : ℤ) : NgramCharacterModel :=
  { n := n, counts := List.replicate (n + 1).toNat [],
    contexts := List.replicate (n + 1).toNat [],
    backoff_weights := List.replicate (n + 1).toNat [],
    words := [], word_freq := [] }

/-! ### get_char_probability (ngram.py lines 50-63) -/

/-- The fallback loop of get_char_probability.  For each order j from
max_order down to 1: curr_context = context[-(j - 1):]; if it is a key of
counts[j], read contexts[j][curr_context] (a defaultdict read, which inserts
0 when the key is missing) and counts[j][curr_context] (likewise, guarded so
it never misses), then return (char_count + 0.01) / (total + 0.01 * 27) when
the total is non-zero; otherwise continue with the next lower order.  When no
order matches, return 1/27.  The model is threaded through because the
defaultdict reads can insert. -/
def gcpLoop (context : List Char) (ch : Char) :
    NgramCharacterModel → List ℤ → ℚ × NgramCharacterModel
  | m, [] => ((1 : ℚ) / 27, m)
  | m, j :: rest =>
    let curr_context := pySliceLast context (j - 1)
    if (Dict.find? (listGetD m.counts j []) curr_context).isSome then
      let tc := Dict.ddGet (listGetD m.contexts j []) curr_context 0
      let m1 : NgramCharacterModel := { m with contexts := listSet m.contexts j tc.2 }
      let cc := Dict.ddGet (listGetD m1.counts j []) curr_context []
      let m2 : NgramCharacterModel := { m1 with counts := listSet m1.counts j cc.2 }
      let char_count := Dict.getD cc.1 ch 0
      if tc.1 ≠ 0 then
        let alpha : ℚ := 1/100
        let vocab_size : ℚ := 27
        (((char_count : ℚ) + alpha) / ((tc.1 : ℚ) + alpha * vocab_size), m2)
      else gcpLoop context ch m2 rest
    else gcpLoop context ch m rest

/-- get_char_probability: max_order = min(len(context) + 1, n), then the
fallback loop over orders max_order, ..., 1. -/
def get_char_probability (m : NgramCharacterModel) (context : List Char)
    (ch : Char) : ℚ × NgramCharacterModel :=
  gcpLoop context ch m (downRange (min ((context.length : ℤ) + 1) m.n))

/-- The order selection get_char_probability performs, as a pure function:
the first order j in the given list whose candidate context is a stored key
with a non-zero total, returning that inner counts dict and total.  Under the
well-formedness invariant of trained models this mirrors gcpLoop exactly. -/
def selectTotal (m : NgramCharacterModel) (context : List Char) :
    List ℤ → Option (Dict Char ℕ × ℕ)
  | [] => none
  | j :: rest =>
    let curr_context := pySliceLast context (j - 1)
    match Dict.find? (listGetD m.counts j []) curr_context with
    | some inner =>
      match Dict.find? (listGetD m.contexts j []) curr_context with
      | some t => if t ≠ 0 then some (inner, t) else selectTotal m context rest
      | none => selectTotal m context rest
    | none => selectTotal m context rest

/-- The order selection of get_char_probability over the full order range. -/
def selectCtx (m : NgramCharacterModel) (context : List Char) :
    Option (Dict Char ℕ × ℕ) :=
  selectTotal m context (downRange (min ((context.length : ℤ) + 1) m.n))

/-! ### get_word_probability (lines 65-84) and predict_top_words (86-91) -/

/-- The character loop of get_word_probability: for each remaining character,
p = get_char_probability(curr_context, char); if p > 0 accumulate log p and
roll the context to (curr_context + char)[-min(len(curr_context) + 1, n-1):],
else return 0.0 early (none here).  The model is threaded through the
character-probability calls. -/
noncomputable def gwpLoop (nZ : ℤ) :
    NgramCharacterModel → List Char → ℝ → List Char →
      Option ℝ × NgramCharacterModel
  | m, _, log_prob, [] => (some log_prob, m)
  | m, curr_context, log_prob, c :: rest =>
    let pr := get_char_probability m curr_context c
    if 0 < pr.1 then
      gwpLoop nZ pr.2
        (pySliceLast (curr_context ++ [c]) (min ((curr_context.length : ℤ) + 1) (nZ - 1)))
        (log_prob + Real.log ((pr.1 : ℚ) : ℝ)) rest
    else (none, pr.2)

/-- get_word_probability (ngram.py lines 65-84): 0.0 when the word does not
start with the context; otherwise accumulate character log-probabilities
along the rolling context, then exp, the frequency boost
ln(1 + word_freq.get(word, 0)) / 10 and the length penalty
1 / (1 + 0.1 (len word - len context)). -/
noncomputable def get_word_probability (m : NgramCharacterModel)
    (context word : List Char) : ℝ × NgramCharacterModel :=
  if ¬ (context.isPrefixOf word) then (0, m)
  else
    let curr0 := pySliceLast context (min (context.length : ℤ) (m.n - 1))
    match gwpLoop m.n m curr0 0 (word.drop context.length) with
    | (none, m1) => (0, m1)
    | (some log_prob, m1) =>
      let prob := Real.exp log_prob
      let freq_boost := Real.log (1 + ((Dict.getD m1.word_freq word 0 : ℕ) : ℝ)) / 10
      let length_penalty :=
        (1 : ℝ) / (1 + (1/10) * ((word.length : ℝ) - (context.length : ℝ)))
      (prob * (1 + freq_boost) * length_penalty, m1)

/-- The candidate-scoring comprehension of predict_top_words, evaluated left
to right with the model threaded through the scoring calls. -/
noncomputable def scoreAll (context : List Char) :
    NgramCharacterModel → List (List Char) →
      List (List Char × ℝ) × NgramCharacterModel
  | m, [] => ([], m)
  | m, w :: ws =>
    let pr := get_word_probability m context w
    let rest := scoreAll context pr.2 ws
    ((w, pr.1) :: rest.1, rest.2)

open Classical in
/-- predict_top_words (ngram.py lines 86-91): lowercase the context, filter
the vocabulary by prefix, score every candidate, sort by score descending
(Python sorted is a stable sort, as is insertionSort) and keep the first
top_k pairs. -/
noncomputable def predict_top_words (m : NgramCharacterModel)
    (context : List Char) (top_k : ℕ) :
    List (List Char × ℝ) × NgramCharacterModel :=
  let ctx := context.map Char.toLower
  let candidates := m.words.filter (fun w => ctx.isPrefixOf w)
  let scored := scoreAll ctx m candidates
  ((List.insertionSort (fun a b => b.2 ≤ a.2) scored.1).take top_k, scored.2)

/-- The 27-symbol alphabet of the smoothing denominator: 26 lowercase letters
and the space. -/
def alphabet : List Char :=
  ['a', 'b', 'c', 'd', 'e', 'f', 'g', 'h', 'i', 'j', 'k', 'l', 'm',
   'n', 'o', 'p', 'q', 'r', 's', 't', 'u', 'v', 'w', 'x', 'y', 'z', ' ']

/-- Modelled from the spec (section 4.5): the per-character probabilities
p_i of a word's characters after the prefix, under the rolling context that
keeps at most n - 1 characters (a true bounded suffix, with no Python -0
quirk). -/
def specCharProbs (m : NgramCharacterModel) :
    List Char → List Char → List ℚ
  | _, [] => []
  | curr_context, c :: rest =>
    (get_char_probability m curr_context c).1 ::
      specCharProbs m
        (suffixLen (curr_context ++ [c]) (min ((curr_context.length : ℤ) + 1) (m.n - 1)))
        rest

/-- Modelled from the spec (section 4.5): the claimed word score
exp(sum of ln p_i) times (1 + ln(1 + freq)/10) times
1/(1 + 0.1 (len word - len prefix)), with the p_i taken under the bounded
rolling context of length at most n - 1. -/
noncomputable def specWordScore (m : NgramCharacterModel)
    (context word : List Char) : ℝ :=
  if ¬ (context.isPrefixOf word) then 0
  else
    let ps := specCharProbs m
      (suffixLen context (min (context.length : ℤ) (m.n - 1)))
      (word.drop context.length)
    Real.exp ((ps.map (fun q => Real.log ((q : ℚ) : ℝ))).sum)
      * (1 + Real.log (1 + ((Dict.getD m.word_freq word 0 : ℕ) : ℝ)) / 10)
      * ((1 : ℝ) / (1 + (1/10) * ((word.length : ℝ) - (context.length : ℝ))))

/-! ### Well-formedness invariant of the trained tables -/

theorem listGetD_eq_of_some {α : Type} {l : List α} {j : ℤ} {a : α} (d : α)
    (h : listGet? l j = some a) : listGetD l j d = a := by
  simp [listGetD, h]

/-- The training invariant: at every order, the count table and the total
table have the same keys, each stored total is the sum of the counts below
it, and every stored total is at least 1. -/
def TInv (counts : List (Dict (List Char) (Dict Char ℕ)))
    (contexts : List (Dict (List Char) ℕ)) : Prop :=
  ∀ j : ℤ, ∀ ctx : List Char,
    ((Dict.find? (listGetD counts j []) ctx).isSome
      ↔ (Dict.find? (listGetD contexts j []) ctx).isSome)
    ∧ Dict.getD (listGetD contexts j []) ctx 0
        = Dict.sumValues (Dict.getD (listGetD counts j []) ctx [])
    ∧ (∀ T, Dict.find? (listGetD contexts j []) ctx = some T → 1 ≤ T)

theorem TInv_init (k k' : ℕ) :
    TInv (List.replicate k []) (List.replicate k' []) := by
  intro j ctx
  rw [listGetD_replicate_nil, listGetD_replicate_nil]
  refine ⟨Iff.rfl, ?_, ?_⟩
  · simp [Dict.getD, Dict.find?, Dict.sumValues]
  · intro T hT
    simp [Dict.find?] at hT

theorem trainStep_inv {s : List Char} {tb : TrainTables} {i j : ℤ}
    {tb' : TrainTables} (h : trainStep s tb i j = some tb')
    (hI : TInv tb.1 tb.2) : TInv tb'.1 tb'.2 := by
  unfold trainStep at h
  by_cases hg : j - 1 ≤ i
  · rw [if_pos hg] at h
    rcases hnc : pyCharAt? s i with _ | nc <;> rw [hnc] at h
    · simp at h
    rcases hcj : listGet? tb.1 j with _ | cj <;> rw [hcj] at h
    · simp at h
    rcases hxj : listGet? tb.2 j with _ | xj <;> rw [hxj] at h
    · simp at h
    simp only [Option.some.injEq] at h
    subst h
    intro j' ctx'
    by_cases hj : j' = j
    case neg =>
      have e1 := listGetD_set_ne tb.1 j j'
        (Dict.set cj (pySlice s (i - (j - 1)) i)
          (Dict.set (Dict.getD cj (pySlice s (i - (j - 1)) i) [])
            nc (Dict.getD (Dict.getD cj (pySlice s (i - (j - 1)) i) []) nc 0 + 1)))
        ([] : Dict (List Char) (Dict Char ℕ)) hj
      have e2 := listGetD_set_ne tb.2 j j'
        (Dict.set xj (pySlice s (i - (j - 1)) i)
          (Dict.getD xj (pySlice s (i - (j - 1)) i) 0 + 1))
        ([] : Dict (List Char) ℕ) hj
      simpa only [e1, e2] using hI j' ctx'
    case pos =>
      subst hj
      set ctx := pySlice s (i - (j' - 1)) i with hctxdef
      have e1 := listGetD_set_self tb.1 j'
        (Dict.set cj ctx
          (Dict.set (Dict.getD cj ctx []) nc (Dict.getD (Dict.getD cj ctx []) nc 0 + 1)))
        ([] : Dict (List Char) (Dict Char ℕ)) (by rw [hcj]; rfl)
      have e2 := listGetD_set_self tb.2 j'
        (Dict.set xj ctx (Dict.getD xj ctx 0 + 1))
        ([] : Dict (List Char) ℕ) (by rw [hxj]; rfl)
      have hcj' : listGetD tb.1 j' [] = cj := listGetD_eq_of_some [] hcj
      have hxj' : listGetD tb.2 j' [] = xj := listGetD_eq_of_some [] hxj
      have hold := hI j' ctx'
      rw [hcj', hxj'] at hold
      rw [e1, e2]
      by_cases hc : ctx' = ctx
      case pos =>
        subst hc
        refine ⟨?_, ?_, ?_⟩
        · simp [Dict.find?_set_self]
        · rw [Dict.getD_set_self, Dict.getD_set_self, Dict.sumValues_bump]
          rw [hold.2.1]
        · intro T hT
          rw [Dict.find?_set_self] at hT
          have hTv : Dict.getD xj ctx 0 + 1 = T := Option.some.inj hT
          omega
      case neg =>
        refine ⟨?_, ?_, ?_⟩
        · rw [Dict.find?_set_ne _ _ _ _ hc, Dict.find?_set_ne _ _ _ _ hc]
          exact hold.1
        · rw [Dict.getD_set_ne _ _ _ _ _ hc, Dict.getD_set_ne _ _ _ _ _ hc]
          exact hold.2.1
        · intro T hT
          rw [Dict.find?_set_ne _ _ _ _ hc] at hT
          exact hold.2.2 T hT
  · rw [if_neg hg] at h
    simp only [Option.some.injEq] at h
    subst h
    exact hI

theorem trainRow_inv {s : List Char} {i : ℤ} :
    ∀ (js : List ℤ) (tb tb' : TrainTables),
      trainRow s i tb js = some tb' → TInv tb.1 tb.2 → TInv tb'.1 tb'.2 := by
  intro js
  induction js with
  | nil =>
    intro tb tb' h hI
    simp only [trainRow, Option.some.injEq] at h
    rwa [← h]
  | cons j js ih =>
    intro tb tb' h hI
    simp only [trainRow] at h
    rcases hst : trainStep s tb i j with _ | tb1 <;> rw [hst] at h
    · simp at h
    · exact ih tb1 tb' h (trainStep_inv hst hI)

theorem trainAll_inv {s : List Char} {n : ℤ} :
    ∀ (irest : List ℤ) (tb tb' : TrainTables),
      trainAll s n tb irest = some tb' → TInv tb.1 tb.2 → TInv tb'.1 tb'.2 := by
  intro irest
  induction irest with
  | nil =>
    intro tb tb' h hI
    simp only [trainAll, Option.some.injEq] at h
    rwa [← h]
  | cons i irest ih =>
    intro tb tb' h hI
    simp only [trainAll] at h
    rcases hr : trainRow s i tb (jRange n) with _ | tb1 <;> rw [hr] at h
    · simp at h
    · exact ih tb1 tb' h (trainRow_inv (jRange n) tb tb1 hr hI)

theorem construct_fields {corpus : List Char} {n : ℤ} {m : NgramCharacterModel}
    (h : construct corpus n = some m) :
    m.n = n ∧ TInv m.counts m.contexts := by
  simp only [construct, Option.map_eq_some'] at h
  obtain ⟨tb, htr, hm⟩ := h
  subst hm
  exact ⟨rfl, trainAll_inv _ _ tb htr (TInv_init _ _)⟩

/-! ### Totality of construction: no runtime failure is reachable -/

theorem mem_jRange {n j : ℤ} (h : j ∈ jRange n) : 1 ≤ j ∧ j ≤ n := by
  unfold jRange at h
  obtain ⟨t, ht, rfl⟩ := List.mem_map.mp h
  have ht2 := List.mem_range.mp ht
  omega

theorem mem_iRange {s : List Char} {n i : ℤ} (h : i ∈ iRange s n) :
    0 ≤ i ∧ i ≤ (s.length : ℤ) - n := by
  unfold iRange at h
  obtain ⟨t, ht, rfl⟩ := List.mem_map.mp h
  have ht2 := List.mem_range.mp ht
  omega

theorem jRange_eq_nil {n : ℤ} (h : n ≤ 0) : jRange n = [] := by
  have : n.toNat = 0 := by omega
  simp [jRange, this]

theorem trainStep_total {s : List Char} {i j : ℤ} (tb : TrainTables)
    (hj1 : 1 ≤ j) (hjl : j < (tb.1.length : ℤ)) (hjl2 : j < (tb.2.length : ℤ))
    (hil : i < (s.length : ℤ)) :
    ∃ tb', trainStep s tb i j = some tb'
      ∧ tb'.1.length = tb.1.length ∧ tb'.2.length = tb.2.length := by
  unfold trainStep
  by_cases hg : j - 1 ≤ i
  · have hi0 : 0 ≤ i := by omega
    have h1 : (pyCharAt? s i).isSome := by
      unfold pyCharAt?
      exact listGet?_isSome_of_bounds s i hi0 hil
    have h2 : (listGet? tb.1 j).isSome :=
      listGet?_isSome_of_bounds tb.1 j (by omega) hjl
    have h3 : (listGet? tb.2 j).isSome :=
      listGet?_isSome_of_bounds tb.2 j (by omega) hjl2
    obtain ⟨nc, hnc⟩ := Option.isSome_iff_exists.mp h1
    obtain ⟨cj, hcj⟩ := Option.isSome_iff_exists.mp h2
    obtain ⟨xj, hxj⟩ := Option.isSome_iff_exists.mp h3
    rw [if_pos hg, hnc, hcj, hxj]
    exact ⟨_, rfl, by simp [length_listSet], by simp [length_listSet]⟩
  · rw [if_neg hg]
    exact ⟨tb, rfl, rfl, rfl⟩

theorem trainRow_total {s : List Char} {n i : ℤ} :
    ∀ (js : List ℤ) (tb : TrainTables),
      (∀ j ∈ js, 1 ≤ j ∧ j ≤ n) →
      (tb.1.length : ℤ) = n + 1 → (tb.2.length : ℤ) = n + 1 →
      i < (s.length : ℤ) →
      ∃ tb', trainRow s i tb js = some tb'
        ∧ (tb'.1.length : ℤ) = n + 1 ∧ (tb'.2.length : ℤ) = n + 1 := by
  intro js
  induction js with
  | nil =>
    intro tb _ hl1 hl2 _
    exact ⟨tb, rfl, hl1, hl2⟩
  | cons j js ih =>
    intro tb hjs hl1 hl2 hil
    obtain ⟨hj1, hjn⟩ := hjs j (List.mem_cons_self j js)
    obtain ⟨tb1, hstep, hL1, hL2⟩ :=
      trainStep_total tb hj1 (by omega) (by omega) hil
    obtain ⟨tb', hrow, hL1', hL2'⟩ :=
      ih tb1 (fun j hj => hjs j (List.mem_cons_of_mem _ hj))
        (by omega) (by omega) hil
    refine ⟨tb', ?_, hL1', hL2'⟩
    simp only [trainRow, hstep]
    exact hrow

theorem trainAll_total {s : List Char} {n : ℤ} (hn : 1 ≤ n) :
    ∀ (irest : List ℤ) (tb : TrainTables),
      (∀ i ∈ irest, 0 ≤ i ∧ i ≤ (s.length : ℤ) - n) →
      (tb.1.length : ℤ) = n + 1 → (tb.2.length : ℤ) = n + 1 →
      ∃ tb', trainAll s n tb irest = some tb' := by
  intro irest
  induction irest with
  | nil => intro tb _ _ _; exact ⟨tb, rfl⟩
  | cons i irest ih =>
    intro tb his hl1 hl2
    obtain ⟨hi0, hin⟩ := his i (List.mem_cons_self i irest)
    have hil : i < (s.length : ℤ) := by omega
    obtain ⟨tb1, hrow, hL1, hL2⟩ :=
      trainRow_total (jRange n) tb (fun j hj => mem_jRange hj) hl1 hl2 hil
    obtain ⟨tb', hall⟩ :=
      ih tb1 (fun i2 hi2 => his i2 (List.mem_cons_of_mem _ hi2)) hL1 hL2
    refine ⟨tb', ?_⟩
    show (match trainRow s i tb (jRange n) with
      | some tb2 => trainAll s n tb2 irest
      | none => none) = some tb'
    rw [hrow]
    exact hall

theorem trainAll_nil_jRange {s : List Char} {n : ℤ} (hn : jRange n = []) :
    ∀ (irest : List ℤ) (tb : TrainTables), trainAll s n tb irest = some tb := by
  intro irest
  induction irest with
  | nil => intro tb; rfl
  | cons i irest ih =>
    intro tb
    simp only [trainAll, hn, trainRow]
    exact ih tb

theorem construct_isSome (corpus : List Char) (n : ℤ) :
    (construct corpus n).isSome := by
  have hmap : ∀ (o : Option TrainTables)
      (f : TrainTables → NgramCharacterModel), o.isSome → (o.map f).isSome := by
    intro o f ho
    cases o
    · simp at ho
    · simp
  have htr : (trainAll (joinTokens (buildTokenList n (sentTokenize (normalizeText corpus)))) n
      (List.replicate (n + 1).toNat [], List.replicate (n + 1).toNat [])
      (iRange (joinTokens (buildTokenList n (sentTokenize (normalizeText corpus)))) n)).isSome := by
    by_cases hn : 1 ≤ n
    · obtain ⟨tb', hall⟩ :=
        trainAll_total hn
          (iRange (joinTokens (buildTokenList n (sentTokenize (normalizeText corpus)))) n)
          (List.replicate (n + 1).toNat [], List.replicate (n + 1).toNat [])
          (fun i hi => mem_iRange hi)
          (by simp only [List.length_replicate]; omega)
          (by simp only [List.length_replicate]; omega)
      rw [hall]
      rfl
    · rw [trainAll_nil_jRange (jRange_eq_nil (by omega)) _ _]
      rfl
  exact hmap _ _ htr

/-! ### Behaviour of get_char_probability on well-formed models -/

theorem gcpLoop_eq {m : NgramCharacterModel} (hI : TInv m.counts m.contexts)
    (context : List Char) (ch : Char) :
    ∀ js : List ℤ,
      gcpLoop context ch m js
        = ((match selectTotal m context js with
            | some p => (((Dict.getD p.1 ch 0 : ℕ) : ℚ) + 1/100) / (((p.2 : ℕ) : ℚ) + (1/100) * 27)
            | none => (1 : ℚ) / 27), m) := by
  intro js
  induction js with
  | nil => rfl
  | cons j rest ih =>
    rcases hfind : Dict.find? (listGetD m.counts j [])
        (pySliceLast context (j - 1)) with _ | inner
    · have hsel : selectTotal m context (j :: rest) = selectTotal m context rest := by
        simp only [selectTotal, hfind]
      have hloop : gcpLoop context ch m (j :: rest) = gcpLoop context ch m rest := by
        simp only [gcpLoop, hfind, Option.isSome_none, Bool.false_eq_true, if_false]
      rw [hloop, hsel, ih]
    · have hSome : (Dict.find? (listGetD m.contexts j [])
          (pySliceLast context (j - 1))).isSome := by
        have := (hI j (pySliceLast context (j - 1))).1
        rw [hfind] at this
        exact this.mp rfl
      obtain ⟨T, hT⟩ := Option.isSome_iff_exists.mp hSome
      have hT1 : 1 ≤ T := (hI j (pySliceLast context (j - 1))).2.2 T hT
      have hTne : T ≠ 0 := by omega
      have hdd1 : Dict.ddGet (listGetD m.contexts j [])
          (pySliceLast context (j - 1)) 0 = (T, listGetD m.contexts j []) := by
        simp only [Dict.ddGet, hT]
      have hdd2 : Dict.ddGet (listGetD m.counts j [])
          (pySliceLast context (j - 1)) [] = (inner, listGetD m.counts j []) := by
        simp only [Dict.ddGet, hfind]
      have hm1 : listSet m.contexts j (listGetD m.contexts j []) = m.contexts :=
        listSet_getD_self m.contexts j []
      have hm2 : listSet m.counts j (listGetD m.counts j []) = m.counts :=
        listSet_getD_self m.counts j []
      have hsel : selectTotal m context (j :: rest) = some (inner, T) := by
        simp only [selectTotal, hfind, hT, if_pos hTne]
      rw [hsel]
      show (if (Dict.find? (listGetD m.counts j [])
          (pySliceLast context (j - 1))).isSome then _ else _) = _
      rw [hfind]
      simp only [Option.isSome_some, if_true, hdd1, hdd2, hm1, hm2, if_pos hTne]

theorem selectTotal_bounds {m : NgramCharacterModel}
    (hI : TInv m.counts m.contexts) (context : List Char) :
    ∀ (js : List ℤ) (inner : Dict Char ℕ) (T : ℕ),
      selectTotal m context js = some (inner, T) →
      Dict.sumValues inner = T ∧ 1 ≤ T := by
  intro js
  induction js with
  | nil => intro inner T h; simp [selectTotal] at h
  | cons j rest ih =>
    intro inner T h
    rcases hfind : Dict.find? (listGetD m.counts j [])
        (pySliceLast context (j - 1)) with _ | inner2
    · simp only [selectTotal, hfind] at h
      exact ih inner T h
    · rcases hT : Dict.find? (listGetD m.contexts j [])
          (pySliceLast context (j - 1)) with _ | T2
      · simp only [selectTotal, hfind, hT] at h
        exact ih inner T h
      · by_cases hT0 : T2 ≠ 0
        · simp only [selectTotal, hfind, hT, if_pos hT0, Option.some.injEq] at h
          have h2 := (hI j (pySliceLast context (j - 1))).2.1
          have hgx : Dict.getD (listGetD m.contexts j [])
              (pySliceLast context (j - 1)) 0 = T2 := by
            simp [Dict.getD, hT]
          have hgc : Dict.getD (listGetD m.counts j [])
              (pySliceLast context (j - 1)) [] = inner2 := by
            simp [Dict.getD, hfind]
          rw [hgx, hgc] at h2
          have hT1 := (hI j (pySliceLast context (j - 1))).2.2 T2 hT
          have hinner : inner = inner2 ∧ T = T2 := by
            have := h
            rw [Prod.mk.injEq] at this
            exact ⟨this.1.symm, this.2.symm⟩
          rw [hinner.1, hinner.2]
          exact ⟨h2.symm, hT1⟩
        · simp only [selectTotal, hfind, hT, if_neg hT0] at h
          exact ih inner T h

theorem get_char_probability_eq {m : NgramCharacterModel}
    (hI : TInv m.counts m.contexts) (context : List Char) (ch : Char) :
    get_char_probability m context ch
      = ((match selectCtx m context with
          | some p => (((Dict.getD p.1 ch 0 : ℕ) : ℚ) + 1/100)
              / (((p.2 : ℕ) : ℚ) + (1/100) * 27)
          | none => (1 : ℚ) / 27), m) :=
  gcpLoop_eq hI context ch _

theorem get_char_probability_state {m : NgramCharacterModel}
    (hI : TInv m.counts m.contexts) (context : List Char) (ch : Char) :
    (get_char_probability m context ch).2 = m := by
  rw [get_char_probability_eq hI]

theorem get_char_probability_bounds {m : NgramCharacterModel}
    (hI : TInv m.counts m.contexts) (context : List Char) (ch : Char) :
    0 < (get_char_probability m context ch).1
      ∧ (get_char_probability m context ch).1 ≤ 1 := by
  rw [get_char_probability_eq hI]
  dsimp only
  rcases hsel : selectCtx m context with _ | p
  · norm_num
  · obtain ⟨inner, T⟩ := p
    obtain ⟨hsum, hT1⟩ := selectTotal_bounds hI context _ inner T hsel
    have hcnt : Dict.getD inner ch 0 ≤ T := hsum ▸ Dict.getD_le_sumValues inner ch
    have hcq : ((Dict.getD inner ch 0 : ℕ) : ℚ) ≤ ((T : ℕ) : ℚ) := by
      exact_mod_cast hcnt
    constructor
    · apply div_pos
      · positivity
      · positivity
    · rw [div_le_one (by positivity)]
      linarith

theorem gwpLoop_state {m : NgramCharacterModel}
    (hI : TInv m.counts m.contexts) (nZ : ℤ) :
    ∀ (rest : List Char) (curr : List Char) (lp : ℝ),
      (gwpLoop nZ m curr lp rest).2 = m := by
  intro rest
  induction rest with
  | nil => intro curr lp; rfl
  | cons c rest ih =>
    intro curr lp
    simp only [gwpLoop]
    have hst := get_char_probability_state hI curr c
    by_cases hp : 0 < (get_char_probability m curr c).1
    · rw [if_pos hp, hst]
      exact ih _ _
    · rw [if_neg hp]
      exact hst

theorem get_word_probability_state {m : NgramCharacterModel}
    (hI : TInv m.counts m.contexts) (context word : List Char) :
    (get_word_probability m context word).2 = m := by
  unfold get_word_probability
  by_cases hpre : ¬ (context.isPrefixOf word)
  · rw [if_pos hpre]
  · rw [if_neg hpre]
    have hst := gwpLoop_state hI m.n (word.drop context.length)
      (pySliceLast context (min (context.length : ℤ) (m.n - 1))) 0
    rcases hg : gwpLoop m.n m
        (pySliceLast context (min (context.length : ℤ) (m.n - 1))) 0
        (word.drop context.length) with ⟨o, m1⟩
    rw [hg] at hst
    dsimp only
    rw [hg]
    cases o
    · simpa using hst
    · simpa using hst

theorem scoreAll_state {m : NgramCharacterModel}
    (hI : TInv m.counts m.contexts) (context : List Char) :
    ∀ (ws : List (List Char)), (scoreAll context m ws).2 = m := by
  intro ws
  induction ws with
  | nil => rfl
  | cons w ws ih =>
    show (scoreAll context (get_word_probability m context w).2 ws).2 = m
    rw [get_word_probability_state hI]
    exact ih

theorem predict_top_words_state {m : NgramCharacterModel}
    (hI : TInv m.counts m.contexts) (context : List Char) (top_k : ℕ) :
    (predict_top_words m context top_k).2 = m := by
  unfold predict_top_words
  exact scoreAll_state hI _ _

/-! ### Helper facts for the spec claims -/

theorem pySliceLast_pos (s : List Char) {k : ℤ} (h : 0 < k) :
    pySliceLast s k = suffixLen s k := by
  unfold pySliceLast suffixLen
  rw [if_neg (by omega)]

theorem gwpLoop_spec {m : NgramCharacterModel}
    (hI : TInv m.counts m.contexts) (hn : 2 ≤ m.n) :
    ∀ (rest curr : List Char) (lp : ℝ),
      gwpLoop m.n m curr lp rest
        = (some (lp
            + ((specCharProbs m curr rest).map
                (fun q => Real.log ((q : ℚ) : ℝ))).sum), m) := by
  intro rest
  induction rest with
  | nil =>
    intro curr lp
    simp [gwpLoop, specCharProbs]
  | cons c rest ih =>
    intro curr lp
    simp only [gwpLoop]
    have hp := (get_char_probability_bounds hI curr c).1
    have hst := get_char_probability_state hI curr c
    rw [if_pos hp, hst]
    have hslice : pySliceLast (curr ++ [c]) (min ((curr.length : ℤ) + 1) (m.n - 1))
        = suffixLen (curr ++ [c]) (min ((curr.length : ℤ) + 1) (m.n - 1)) :=
      pySliceLast_pos _ (by omega)
    rw [hslice, ih]
    simp only [specCharProbs, List.map_cons, List.sum_cons]
    rw [add_assoc]

theorem get_word_probability_spec {m : NgramCharacterModel}
    (hI : TInv m.counts m.contexts) (hn : 2 ≤ m.n)
    (context word : List Char) :
    (get_word_probability m context word).1 = specWordScore m context word := by
  unfold get_word_probability specWordScore
  by_cases hpre : ¬ (context.isPrefixOf word)
  · rw [if_pos hpre, if_pos hpre]
  · rw [if_neg hpre, if_neg hpre]
    have hinit : pySliceLast context (min (context.length : ℤ) (m.n - 1))
        = suffixLen context (min (context.length : ℤ) (m.n - 1)) := by
      by_cases hc : context = []
      · subst hc
        simp [pySliceLast, suffixLen]
      · have hlen : 0 < context.length := List.length_pos.mpr hc
        exact pySliceLast_pos _ (by omega)
    rw [hinit]
    dsimp only
    rw [gwpLoop_spec hI hn]
    dsimp only
    rw [zero_add]

theorem sum_map_div (f : Char → ℚ) (D : ℚ) (l : List Char) :
    (l.map (fun c => (f c + 1/100) / D)).sum
      = ((l.map f).sum + (l.length : ℚ) * (1/100)) / D := by
  induction l with
  | nil => simp
  | cons c t ih =>
    rw [List.map_cons, List.sum_cons, List.map_cons, List.sum_cons, ih,
      div_add_div_same]
    congr 1
    rw [List.length_cons]
    push_cast
    ring

theorem natCast_map_sum (g : Char → ℕ) (l : List Char) :
    (((l.map g).sum : ℕ) : ℚ) = (l.map (fun c => ((g c : ℕ) : ℚ))).sum := by
  induction l with
  | nil => simp
  | cons c t ih =>
    rw [List.map_cons, List.sum_cons, List.map_cons, List.sum_cons]
    push_cast
    rw [List.map_map]
    rfl

theorem alphabet_nodup : alphabet.Nodup := by decide

theorem alphabet_length : alphabet.length = 27 := rfl

theorem gcpLoop_empty (n : ℤ) (context : List Char) (ch : Char) :
    ∀ js : List ℤ, gcpLoop context ch (emptyModel n) js = (1/27, emptyModel n) := by
  intro js
  induction js with
  | nil => rfl
  | cons j rest ih =>
    have hc : listGetD (emptyModel n).counts j [] = [] :=
      listGetD_replicate_nil (n + 1).toNat j
    simp only [gcpLoop, hc, Dict.find?, Option.isSome_none, Bool.false_eq_true,
      if_false]
    exact ih

theorem backoffWeights_replicate (n : ℤ) :
    backoffWeights n (List.replicate (n + 1).toNat [])
      = List.replicate (n + 1).toNat [] := by
  unfold backoffWeights
  induction jRange2 n with
  | nil => rfl
  | cons j js ih =>
    rw [List.foldl_cons]
    have hx : listGetD (List.replicate (n + 1).toNat ([] : Dict (List Char) ℕ)) j []
        = [] := listGetD_replicate_nil (n + 1).toNat j
    rw [hx]
    simp only [List.foldl_nil]
    rw [listSet_getD_self]
    exact ih

theorem construct_empty (n : ℤ) : construct [] n = some (emptyModel n) := by
  have htr : trainAll [] n
      (List.replicate (n + 1).toNat [], List.replicate (n + 1).toNat [])
      (iRange [] n)
      = some (List.replicate (n + 1).toNat [], List.replicate (n + 1).toNat []) := by
    by_cases hn : 1 ≤ n
    · have h0 : iRange ([] : List Char) n = [] := by
        unfold iRange
        have h1 : ((([] : List Char).length : ℤ) - n + 1).toNat = 0 := by
          simp only [List.length_nil, Nat.cast_zero]
          omega
        rw [h1]
        rfl
      rw [h0]
      rfl
    · exact trainAll_nil_jRange (jRange_eq_nil (by omega)) _ _
  have hc : construct [] n
      = (trainAll [] n
          (List.replicate (n + 1).toNat [], List.replicate (n + 1).toNat [])
          (iRange [] n)).map
        (fun tb =>
          { n := n, counts := tb.1, contexts := tb.2,
            backoff_weights := backoffWeights n tb.2,
            words := [], word_freq := [] }) := rfl
  rw [hc, htr, Option.map_some']
  unfold emptyModel
  rw [backoffWeights_replicate]

theorem scoreAll_mem {context : List Char} :
    ∀ (ws : List (List Char)) (m : NgramCharacterModel) (w : List Char) (s : ℝ),
      (w, s) ∈ (scoreAll context m ws).1 → w ∈ ws := by
  intro ws
  induction ws with
  | nil => intro m w s h; simp [scoreAll] at h
  | cons w0 ws ih =>
    intro m w s h
    have hh : (w, s) = (w0, (get_word_probability m context w0).1)
        ∨ (w, s) ∈ (scoreAll context (get_word_probability m context w0).2 ws).1 :=
      List.mem_cons.mp h
    rcases hh with h1 | h2
    · have : w = w0 := congrArg Prod.fst h1
      rw [this]
      exact List.mem_cons_self w0 ws
    · exact List.mem_cons_of_mem _ (ih _ w s h2)

/-! ### The spec claims -/

set_option maxRecDepth 8192 in
/-- Claim C1 (code bug witness).  On the model trained from corpus ab with
n = 2, the context zz has no matching context at any order j ≥ 2, and the
order-1 context (the empty string) is stored in counts[1]; the claimed
order-1 estimate from the empty context is 101/727, yet get_char_probability
returns the uniform 1/27: the order-1 iteration evaluates the Python slice
context[-(1 - 1):] = context[-0:], which is the whole context zz rather than
the empty suffix, so the loop never reaches the stored empty context. -/
theorem order_one_fallback_bug :
    (construct ['a', 'b'] 2).map
        (fun m => (get_char_probability m ['z', 'z'] 'a').1) = some (1/27)
    ∧ (construct ['a', 'b'] 2).map
        (fun m => (get_char_probability m [] 'a').1) = some (101/727)
    ∧ (construct ['a', 'b'] 2).map
        (fun m => (Dict.find? (listGetD m.counts 1 []) []).isSome) = some true
    ∧ ((1 : ℚ)/27 ≠ 101/727) := by
  refine ⟨?_, ?_, ?_, ?_⟩ <;> with_unfolding_all decide

/-- Claim C3 (counterexample to the stated behaviour).  Construction with
n = 0 succeeds: no InvalidOrder rejection exists in the code. -/
theorem invalid_order_not_raised : (construct ['a'] 0).isSome = true := by
  decide

/-- Claim C3 (amended).  Construction never fails: for every corpus and every
integer n, including every n ≤ 0, NgramCharacterModel.__init__ runs to
completion (the code performs no validation of n, and no indexed read can go
out of range). -/
theorem construct_total_all_orders (corpus : List Char) (n : ℤ) :
    (construct corpus n).isSome :=
  construct_isSome corpus n

/-- Claim C4.  On every constructed model (any corpus, any n, the empty
corpus included) and for every context string and character,
get_char_probability returns a value that is strictly positive and at
most 1. -/
theorem char_probability_in_unit_interval (corpus : List Char) (n : ℤ)
    (m : NgramCharacterModel) (h : construct corpus n = some m)
    (context : List Char) (ch : Char) :
    0 < (get_char_probability m context ch).1
      ∧ (get_char_probability m context ch).1 ≤ 1 :=
  get_char_probability_bounds (construct_fields h).2 context ch

theorem char_probability_in_unit_interval_witness :
    construct ['a', 'b'] 2 = some ((construct ['a', 'b'] 2).getD (emptyModel 0))
    ∧ (0 < (get_char_probability
          ((construct ['a', 'b'] 2).getD (emptyModel 0)) ['q'] 'x').1
       ∧ (get_char_probability
          ((construct ['a', 'b'] 2).getD (emptyModel 0)) ['q'] 'x').1 ≤ 1) :=
  ⟨rfl, char_probability_in_unit_interval ['a', 'b'] 2 _ rfl ['q'] 'x'⟩

/-- Claim C7.  After construction no query mutates the model: on every
constructed model, get_char_probability, get_word_probability and
predict_top_words all return the model unchanged (every table — counts,
contexts, backoff weights, vocabulary, word frequencies — is identical
before and after the query). -/
theorem queries_leave_model_unchanged (corpus : List Char) (n : ℤ)
    (m : NgramCharacterModel) (h : construct corpus n = some m) :
    (∀ context ch, (get_char_probability m context ch).2 = m)
    ∧ (∀ context word, (get_word_probability m context word).2 = m)
    ∧ (∀ context top_k, (predict_top_words m context top_k).2 = m) := by
  have hI := (construct_fields h).2
  exact ⟨fun c ch => get_char_probability_state hI c ch,
         fun c w => get_word_probability_state hI c w,
         fun c k => predict_top_words_state hI c k⟩

theorem queries_leave_model_unchanged_witness :
    construct ['a', 'b'] 2 = some ((construct ['a', 'b'] 2).getD (emptyModel 0))
    ∧ ((∀ context ch, (get_char_probability
          ((construct ['a', 'b'] 2).getD (emptyModel 0)) context ch).2
            = (construct ['a', 'b'] 2).getD (emptyModel 0))
       ∧ (∀ context word, (get_word_probability
          ((construct ['a', 'b'] 2).getD (emptyModel 0)) context word).2
            = (construct ['a', 'b'] 2).getD (emptyModel 0))
       ∧ (∀ context top_k, (predict_top_words
          ((construct ['a', 'b'] 2).getD (emptyModel 0)) context top_k).2
            = (construct ['a', 'b'] 2).getD (emptyModel 0))) :=
  ⟨rfl, queries_leave_model_unchanged ['a', 'b'] 2 _ rfl⟩

/-- Claim C8.  An empty corpus is accepted: construction succeeds and yields
the degenerate model whose count, total and backoff tables are all empty (a
list of n+1 empty dicts), whose vocabulary and frequency table are empty,
on which every character-probability query returns the uniform 1/27 and
every top-words query returns the empty list. -/
theorem empty_corpus_degenerate_model (n : ℤ) (context : List Char) (ch : Char)
    (pfx : List Char) (top_k : ℕ) :
    construct [] n = some (emptyModel n)
    ∧ (emptyModel n).counts = List.replicate (n + 1).toNat []
    ∧ (emptyModel n).contexts = List.replicate (n + 1).toNat []
    ∧ (emptyModel n).backoff_weights = List.replicate (n + 1).toNat []
    ∧ (emptyModel n).words = []
    ∧ (emptyModel n).word_freq = []
    ∧ (get_char_probability (emptyModel n) context ch).1 = 1/27
    ∧ (predict_top_words (emptyModel n) pfx top_k).1 = [] := by
  refine ⟨construct_empty n, rfl, rfl, rfl, rfl, rfl, ?_, ?_⟩
  · show (gcpLoop context ch (emptyModel n)
      (downRange (min ((context.length : ℤ) + 1) (emptyModel n).n))).1 = 1/27
    rw [gcpLoop_empty]
  · show ((List.insertionSort (fun a b => b.2 ≤ a.2)
      (scoreAll (pfx.map Char.toLower) (emptyModel n)
        ((emptyModel n).words.filter
          (fun w => (pfx.map Char.toLower).isPrefixOf w))).1).take top_k) = []
    exact List.take_nil

/-- Claim C9.  On every constructed model, for every order j in [1, n] and
every context stored in the count table at order j, the stored total equals
the sum of the per-character counts at that context, and the equality still
holds after any query (queries leave the tables unchanged). -/
theorem context_totals_match_counts (corpus : List Char) (n : ℤ)
    (m : NgramCharacterModel) (h : construct corpus n = some m)
    (j : ℤ) (hj1 : 1 ≤ j) (hjn : j ≤ m.n) (ctx : List Char)
    (hmem : (Dict.find? (listGetD m.counts j []) ctx).isSome) :
    Dict.getD (listGetD m.contexts j []) ctx 0
      = Dict.sumValues (Dict.getD (listGetD m.counts j []) ctx [])
    ∧ (∀ context ch,
        Dict.getD (listGetD ((get_char_probability m context ch).2).contexts j []) ctx 0
          = Dict.sumValues
              (Dict.getD (listGetD ((get_char_probability m context ch).2).counts j []) ctx []))
    ∧ (∀ context word,
        Dict.getD (listGetD ((get_word_probability m context word).2).contexts j []) ctx 0
          = Dict.sumValues
              (Dict.getD (listGetD ((get_word_probability m context word).2).counts j []) ctx []))
    ∧ (∀ context top_k,
        Dict.getD (listGetD ((predict_top_words m context top_k).2).contexts j []) ctx 0
          = Dict.sumValues
              (Dict.getD (listGetD ((predict_top_words m context top_k).2).counts j []) ctx [])) := by
  have hI := (construct_fields h).2
  have base := (hI j ctx).2.1
  refine ⟨base, ?_, ?_, ?_⟩
  · intro context ch
    rw [get_char_probability_state hI]
    exact base
  · intro context word
    rw [get_word_probability_state hI]
    exact base
  · intro context top_k
    rw [predict_top_words_state hI]
    exact base

theorem context_totals_match_counts_witness :
    construct ['a', 'b'] 2 = some ((construct ['a', 'b'] 2).getD (emptyModel 0))
    ∧ (1 : ℤ) ≤ 1
    ∧ (1 : ℤ) ≤ ((construct ['a', 'b'] 2).getD (emptyModel 0)).n
    ∧ (Dict.find? (listGetD ((construct ['a', 'b'] 2).getD (emptyModel 0)).counts 1 [])
        []).isSome
    ∧ Dict.getD (listGetD ((construct ['a', 'b'] 2).getD (emptyModel 0)).contexts 1 []) [] 0
        = Dict.sumValues
            (Dict.getD (listGetD ((construct ['a', 'b'] 2).getD (emptyModel 0)).counts 1 []) [] []) :=
  ⟨rfl, by decide, by decide, by decide,
    (context_totals_match_counts ['a', 'b'] 2 _ rfl 1 (by decide) (by decide) []
      (by decide)).1⟩

/-- Claim C10.  On every constructed model, for every order j in [1, n] a
context is stored in the count table exactly when it is stored in the total
table, every stored total is at least 1, and therefore the smoothing
denominator total + 0.01 * 27 of get_char_probability is strictly
positive whenever a context matches. -/
theorem count_total_key_consistency (corpus : List Char) (n : ℤ)
    (m : NgramCharacterModel) (h : construct corpus n = some m)
    (j : ℤ) (hj1 : 1 ≤ j) (hjn : j ≤ m.n) (ctx : List Char) :
    ((Dict.find? (listGetD m.counts j []) ctx).isSome
      ↔ (Dict.find? (listGetD m.contexts j []) ctx).isSome)
    ∧ (∀ T, Dict.find? (listGetD m.contexts j []) ctx = some T →
        1 ≤ T ∧ 0 < ((T : ℕ) : ℚ) + (1/100) * 27) := by
  have hI := (construct_fields h).2
  exact ⟨(hI j ctx).1, fun T hT => ⟨(hI j ctx).2.2 T hT, by positivity⟩⟩

theorem count_total_key_consistency_witness :
    construct ['a', 'b'] 2 = some ((construct ['a', 'b'] 2).getD (emptyModel 0))
    ∧ (1 : ℤ) ≤ 1
    ∧ (1 : ℤ) ≤ ((construct ['a', 'b'] 2).getD (emptyModel 0)).n
    ∧ (((Dict.find? (listGetD ((construct ['a', 'b'] 2).getD (emptyModel 0)).counts 1 [])
          []).isSome
        ↔ (Dict.find? (listGetD ((construct ['a', 'b'] 2).getD (emptyModel 0)).contexts 1 [])
          []).isSome)
       ∧ (∀ T, Dict.find? (listGetD ((construct ['a', 'b'] 2).getD (emptyModel 0)).contexts 1 [])
            [] = some T → 1 ≤ T ∧ 0 < ((T : ℕ) : ℚ) + (1/100) * 27)) :=
  ⟨rfl, by decide, by decide,
    count_total_key_consistency ['a', 'b'] 2 _ rfl 1 (by decide) (by decide) []⟩

/-- Claim C5.  For every model, prefix and k: predict_top_words returns at
most k pairs, with scores in descending order; every returned word is a
vocabulary word that starts with the lower-cased prefix; and when no
vocabulary word matches the prefix the result is the empty list.  The
embedding is a total function, so no error can escape the call. -/
theorem predict_top_words_spec (m : NgramCharacterModel) (context : List Char)
    (top_k : ℕ) :
    (predict_top_words m context top_k).1.length ≤ top_k
    ∧ (predict_top_words m context top_k).1.Pairwise (fun a b => b.2 ≤ a.2)
    ∧ (∀ w s, (w, s) ∈ (predict_top_words m context top_k).1 →
        w ∈ m.words ∧ (context.map Char.toLower).isPrefixOf w)
    ∧ ((∀ w ∈ m.words, ¬ (context.map Char.toLower).isPrefixOf w) →
        (predict_top_words m context top_k).1 = []) := by
  haveI hTot : IsTotal (List Char × ℝ) (fun a b => b.2 ≤ a.2) :=
    ⟨fun a b => le_total b.2 a.2⟩
  haveI hTrans : IsTrans (List Char × ℝ) (fun a b => b.2 ≤ a.2) :=
    ⟨fun _ _ _ h1 h2 => le_trans h2 h1⟩
  unfold predict_top_words
  dsimp only
  refine ⟨?_, ?_, ?_, ?_⟩
  · rw [List.length_take]
    omega
  · exact List.Pairwise.sublist (List.take_sublist _ _)
      (List.sorted_insertionSort _ _)
  · intro w s hws
    have h1 : (w, s) ∈ List.insertionSort (fun a b => b.2 ≤ a.2)
        (scoreAll (context.map Char.toLower) m
          (m.words.filter (fun w => (context.map Char.toLower).isPrefixOf w))).1 :=
      (List.take_sublist _ _).subset hws
    have h2 : (w, s) ∈ (scoreAll (context.map Char.toLower) m
        (m.words.filter (fun w => (context.map Char.toLower).isPrefixOf w))).1 :=
      (List.perm_insertionSort _ _).mem_iff.mp h1
    have h3 := scoreAll_mem _ m w s h2
    exact ⟨(List.mem_filter.mp h3).1, (List.mem_filter.mp h3).2⟩
  · intro hnone
    have hc : m.words.filter (fun w => (context.map Char.toLower).isPrefixOf w)
        = [] := by
      rw [List.filter_eq_nil_iff]
      intro w hw
      have := hnone w hw
      simpa using this
    rw [hc]
    show ((List.insertionSort _ ([] : List (List Char × ℝ))).take top_k) = []
    exact List.take_nil

set_option maxRecDepth 16384 in
set_option maxHeartbeats 3200000 in
/-- Claim C2 (counterexample).  On the model trained from corpus a with
n = 1 and the empty context (whose length meets the n - 1 bound), the sum of
get_char_probability over the 27-symbol alphabet is 327/527, which is short
of 1 by more than 1/4: the training stream also contains the boundary
markers, whose counts inflate the stored totals but are outside the
27-symbol alphabet. -/
theorem char_prob_sum_not_one :
    construct ['a'] 1 = some ((construct ['a'] 1).getD (emptyModel 0))
    ∧ (alphabet.map (fun c =>
        (get_char_probability ((construct ['a'] 1).getD (emptyModel 0)) [] c).1)).sum
      = 327/527
    ∧ ((1 : ℚ) - 327/527 > 1/4) := by
  refine ⟨rfl, ?_, ?_⟩
  · with_unfolding_all decide
  · with_unfolding_all decide

/-- Claim C2 (amended).  For a trained model and a context of length at
least n - 1, the alphabet sum of get_char_probability equals
(S + 27 alpha) / (T + 27 alpha), where T is the total stored for the
selected context and S the part of T contributed by the 27 alphabet
symbols; the sum is strictly positive and at most 1 (it equals 1 exactly
when every training occurrence after the selected context is an alphabet
symbol, and it equals 1 in the uniform no-match case), but it is not 1 in
general because the boundary markers also follow contexts. -/
theorem char_prob_sum_amended (corpus : List Char) (n : ℤ)
    (m : NgramCharacterModel) (h : construct corpus n = some m)
    (ctx : List Char) (hlen : m.n - 1 ≤ (ctx.length : ℤ)) :
    (match selectCtx m ctx with
     | some p =>
        (alphabet.map (fun c => (get_char_probability m ctx c).1)).sum
          = ((((alphabet.map (fun c => Dict.getD p.1 c 0)).sum : ℕ) : ℚ)
              + 27 * (1/100))
            / (((p.2 : ℕ) : ℚ) + (1/100) * 27)
     | none =>
        (alphabet.map (fun c => (get_char_probability m ctx c).1)).sum = 1)
    ∧ 0 < (alphabet.map (fun c => (get_char_probability m ctx c).1)).sum
    ∧ (alphabet.map (fun c => (get_char_probability m ctx c).1)).sum ≤ 1 := by
  have hI := (construct_fields h).2
  have hmap : ∀ c, (get_char_probability m ctx c).1
      = (match selectCtx m ctx with
         | some p => (((Dict.getD p.1 c 0 : ℕ) : ℚ) + 1/100)
             / (((p.2 : ℕ) : ℚ) + (1/100) * 27)
         | none => (1 : ℚ) / 27) :=
    fun c => congrArg Prod.fst (get_char_probability_eq hI ctx c)
  rcases hsel : selectCtx m ctx with _ | p
  · have h1 : ∀ c, (get_char_probability m ctx c).1 = 1/27 := by
      intro c
      rw [hmap c, hsel]
    have hsum : (alphabet.map (fun c => (get_char_probability m ctx c).1))
        = alphabet.map (fun _ => (1 : ℚ)/27) :=
      List.map_congr_left (fun c _ => h1 c)
    have hval : (alphabet.map (fun _ => (1 : ℚ)/27)).sum = 1 := by
      with_unfolding_all decide
    rw [hsum, hval]
    norm_num
  · obtain ⟨inner, T⟩ := p
    obtain ⟨hsumT, hT1⟩ := selectTotal_bounds hI ctx _ inner T hsel
    have h1 : ∀ c, (get_char_probability m ctx c).1
        = (((Dict.getD inner c 0 : ℕ) : ℚ) + 1/100)
            / (((T : ℕ) : ℚ) + (1/100) * 27) := by
      intro c
      rw [hmap c, hsel]
    have hmapeq : (alphabet.map (fun c => (get_char_probability m ctx c).1))
        = alphabet.map (fun c =>
            ((fun c => ((Dict.getD inner c 0 : ℕ) : ℚ)) c + 1/100)
              / (((T : ℕ) : ℚ) + (1/100) * 27)) :=
      List.map_congr_left (fun c _ => h1 c)
    have hS : (alphabet.map (fun c => Dict.getD inner c 0)).sum ≤ T :=
      hsumT ▸ Dict.sum_getD_nodup_le alphabet inner alphabet_nodup
    have hSq : ((((alphabet.map (fun c => Dict.getD inner c 0)).sum : ℕ)) : ℚ)
        ≤ ((T : ℕ) : ℚ) := by exact_mod_cast hS
    have hsum2 : (alphabet.map (fun c => (get_char_probability m ctx c).1)).sum
        = ((((alphabet.map (fun c => Dict.getD inner c 0)).sum : ℕ) : ℚ)
            + 27 * (1/100))
          / (((T : ℕ) : ℚ) + (1/100) * 27) := by
      rw [hmapeq, sum_map_div]
      rw [natCast_map_sum]
      norm_num [alphabet_length]
    have hnum0 : (0 : ℚ)
        ≤ ((((alphabet.map (fun c => Dict.getD inner c 0)).sum : ℕ)) : ℚ) :=
      Nat.cast_nonneg _
    have hT0 : (0 : ℚ) ≤ ((T : ℕ) : ℚ) := Nat.cast_nonneg _
    have hden : (0 : ℚ) < ((T : ℕ) : ℚ) + (1/100) * 27 := by linarith
    refine ⟨hsum2, ?_, ?_⟩
    · rw [hsum2]
      apply div_pos
      · linarith
      · exact hden
    · rw [hsum2]
      rw [div_le_one hden]
      linarith

theorem char_prob_sum_amended_witness :
    construct ['a', 'b'] 2 = some ((construct ['a', 'b'] 2).getD (emptyModel 0))
    ∧ ((construct ['a', 'b'] 2).getD (emptyModel 0)).n - 1
        ≤ (((['a'] : List Char).length : ℕ) : ℤ)
    ∧ ((match selectCtx ((construct ['a', 'b'] 2).getD (emptyModel 0)) ['a'] with
        | some p =>
          (alphabet.map (fun c =>
            (get_char_probability ((construct ['a', 'b'] 2).getD (emptyModel 0)) ['a'] c).1)).sum
            = ((((alphabet.map (fun c => Dict.getD p.1 c 0)).sum : ℕ) : ℚ)
                + 27 * (1/100))
              / (((p.2 : ℕ) : ℚ) + (1/100) * 27)
        | none =>
          (alphabet.map (fun c =>
            (get_char_probability ((construct ['a', 'b'] 2).getD (emptyModel 0)) ['a'] c).1)).sum = 1)
       ∧ 0 < (alphabet.map (fun c =>
            (get_char_probability ((construct ['a', 'b'] 2).getD (emptyModel 0)) ['a'] c).1)).sum
       ∧ (alphabet.map (fun c =>
            (get_char_probability ((construct ['a', 'b'] 2).getD (emptyModel 0)) ['a'] c).1)).sum ≤ 1) :=
  ⟨rfl, by decide,
    char_prob_sum_amended ['a', 'b'] 2 _ rfl ['a'] (by decide)⟩

/-- Claim C6 (amended).  On every trained model with n at least 2,
get_word_probability equals the claimed formula: 0 when the word does not
start with the prefix, otherwise exp(sum of ln p_i) times
(1 + ln(1 + freq)/10) times 1/(1 + 0.1 (len word - len prefix)), with the
p_i the character probabilities of the characters after the prefix under the
rolling context bounded by n - 1.  For n = 1 the claim fails (see the
counterexample): the Python slice [-0:] keeps the whole accumulated context
instead of an empty one. -/
theorem word_score_formula_amended (corpus : List Char) (n : ℤ)
    (m : NgramCharacterModel) (h : construct corpus n = some m) (hn : 2 ≤ n)
    (context word : List Char) :
    (get_word_probability m context word).1 = specWordScore m context word := by
  have hf := construct_fields h
  exact get_word_probability_spec hf.2 (by rw [hf.1]; exact hn) context word

theorem word_score_formula_amended_witness :
    construct ['a', 'b'] 2 = some ((construct ['a', 'b'] 2).getD (emptyModel 0))
    ∧ (2 : ℤ) ≤ 2
    ∧ (get_word_probability ((construct ['a', 'b'] 2).getD (emptyModel 0))
        ['a'] ['a', 'b']).1
      = specWordScore ((construct ['a', 'b'] 2).getD (emptyModel 0)) ['a'] ['a', 'b'] :=
  ⟨rfl, by decide,
    word_score_formula_amended ['a', 'b'] 2 _ rfl (by decide) ['a'] ['a', 'b']⟩

set_option maxRecDepth 16384 in
set_option maxHeartbeats 3200000 in
/-- Claim C6 (counterexample).  On the model trained from corpus a with
n = 1, the code scores the word ab from prefix a as (1/27) * (10/11) =
10/297: its rolling context stays the full accumulated string (the [-0:]
slice), so the character b is estimated against the unseen context a,
giving the uniform 1/27.  The claimed formula with the rolling context of
length at most n - 1 = 0 uses the stored empty context instead, giving
p = 1/527 and score 10/5797.  The two differ. -/
theorem word_score_formula_counterexample :
    construct ['a'] 1 = some ((construct ['a'] 1).getD (emptyModel 0))
    ∧ (get_word_probability ((construct ['a'] 1).getD (emptyModel 0))
        ['a'] ['a', 'b']).1 = (10/297 : ℝ)
    ∧ specWordScore ((construct ['a'] 1).getD (emptyModel 0)) ['a'] ['a', 'b']
        = (10/5797 : ℝ)
    ∧ ((10/297 : ℝ) ≠ 10/5797) := by
  refine ⟨rfl, ?_, ?_, by norm_num⟩
  · have h1 : (get_word_probability ((construct ['a'] 1).getD (emptyModel 0))
        ['a'] ['a', 'b']).1
        = Real.exp (0 + Real.log (((1 : ℚ)/27 : ℚ) : ℝ))
          * (1 + Real.log (1 + ((0 : ℕ) : ℝ)) / 10)
          * (1 / (1 + (1/10) * (((2 : ℕ) : ℝ) - ((1 : ℕ) : ℝ)))) := by
      with_unfolding_all rfl
    rw [h1]
    have hc : (((1 : ℚ)/27 : ℚ) : ℝ) = 1/27 := by push_cast; ring
    rw [hc, zero_add, Real.exp_log (by norm_num)]
    norm_num [Real.log_one]
  · have h2 : specWordScore ((construct ['a'] 1).getD (emptyModel 0))
        ['a'] ['a', 'b']
        = Real.exp (Real.log (((((0 : ℕ) : ℚ) + 1/100)
              / (((5 : ℕ) : ℚ) + (1/100) * 27) : ℚ) : ℝ) + 0)
          * (1 + Real.log (1 + ((0 : ℕ) : ℝ)) / 10)
          * (1 / (1 + (1/10) * (((2 : ℕ) : ℝ) - ((1 : ℕ) : ℝ)))) := by
      with_unfolding_all rfl
    rw [h2]
    have hc : ((((0 : ℕ) : ℚ) + 1/100) / (((5 : ℕ) : ℚ) + (1/100) * 27) : ℚ)
        = 1/527 := by norm_num
    rw [hc]
    have hc2 : (((1 : ℚ)/527 : ℚ) : ℝ) = 1/527 := by push_cast; ring
    rw [hc2, add_zero, Real.exp_log (by norm_num)]
    norm_num [Real.log_one]
